import Mathlib

/-!
Shallow embedding of `numcodecs_replace` (`src/numcodecs_replace/__init__.py`),
a numcodecs filter codec that replaces configured values during encoding and
passes data through unchanged during decoding.

Floating-point array elements are modelled by the idealized value type `FVal`:
finite values carry an exact rational magnitude (real-valued arithmetic, no
rounding or overflow of finite intermediates), while the IEEE value classes
that the code's logic genuinely branches on — negative zero, the two
infinities, and NaN with an arbitrary bit pattern — are explicit constructors.
Integer-typed arrays are modelled by `List Int`.
-/

namespace NumcodecsReplace

/-- An idealized IEEE-754 double value: a finite rational, the negative-zero
bit pattern, one of the two infinities, or a NaN carrying its remaining bit
pattern (sign/quiet/payload bits) as a natural number. Structural equality of
`FVal` is bit-identity. -/
inductive FVal where
  | finite (q : ℚ)
  | negZero
  | posInf
  | negInf
  | nan (bits : ℕ)
deriving DecidableEq, Repr

/-- Value-class NaN test, `np.isnan`: true for every NaN bit pattern. -/
def isNaNv : FVal → Bool
  | .nan _ => true
  | _ => false

/-- Finiteness test, `np.isfinite`: true exactly for finite values (both zeros
included), false for infinities and NaN. -/
def isFiniteV : FVal → Bool
  | .finite _ => true
  | .negZero => true
  | _ => false

/-- IEEE numeric equality `==`: NaN is unequal to everything (itself included),
`-0.0 == 0.0`, and infinities are equal only to themselves. -/
def numEq : FVal → FVal → Bool
  | .nan _, _ => false
  | _, .nan _ => false
  | .posInf, .posInf => true
  | .posInf, _ => false
  | _, .posInf => false
  | .negInf, .negInf => true
  | .negInf, _ => false
  | _, .negInf => false
  | .finite p, .finite q => p == q
  | .finite p, .negZero => p == 0
  | .negZero, .finite q => q == 0
  | .negZero, .negZero => true

/-- The rational magnitude of a finite value (junk elsewhere; only used on
finite values). -/
def ratOf : FVal → ℚ
  | .finite q => q
  | _ => 0

/-- IEEE strict numeric less-than on non-NaN values:
`-inf < finite < +inf`; any comparison involving NaN is false. -/
def fvLt : FVal → FVal → Bool
  | .nan _, _ => false
  | _, .nan _ => false
  | _, .negInf => false
  | .negInf, _ => true
  | .posInf, _ => false
  | _, .posInf => true
  | a, b => decide (ratOf a < ratOf b)

/-- Binary minimum as used by a `np.minimum` reduction: keeps the accumulator
on ties. -/
def fmin (a b : FVal) : FVal := if fvLt b a then b else a

/-- Binary maximum as used by a `np.maximum` reduction: keeps the accumulator
on ties. -/
def fmax (a b : FVal) : FVal := if fvLt a b then b else a

/-- An extended-real intermediate for IEEE summation: `inf + -inf` is NaN and
NaN is absorbing, exactly as in floating-point addition. -/
inductive EVal where
  | nanE
  | pinfE
  | ninfE
  | val (q : ℚ)
deriving DecidableEq, Repr

/-- IEEE addition on extended values. -/
def eadd : EVal → EVal → EVal
  | .nanE, _ => .nanE
  | _, .nanE => .nanE
  | .pinfE, .ninfE => .nanE
  | .ninfE, .pinfE => .nanE
  | .pinfE, _ => .pinfE
  | _, .pinfE => .pinfE
  | .ninfE, _ => .ninfE
  | _, .ninfE => .ninfE
  | .val a, .val b => .val (a + b)

/-- Injection of an array element into the extended-real sum domain. -/
def toEVal : FVal → EVal
  | .finite q => .val q
  | .negZero => .val 0
  | .posInf => .pinfE
  | .negInf => .ninfE
  | .nan _ => .nanE

/-- The `Replacement` enumeration of `numcodecs_replace`: special replacement
values derived from the original data. -/
inductive Replacement where
  | finite_min
  | finite_mean
  | finite_max
  | nan_min
  | nan_mean
  | nan_max
deriving DecidableEq, Repr

/-- Largest finite `float64`, `np.finfo(np.float64).max = (2 - 2^-52)·2^1023`. -/
def f64max : ℚ := 2 ^ 1024 - 2 ^ 971

/-- Smallest finite `float64`, `np.finfo(np.float64).min`. -/
def f64min : ℚ := -(2 ^ 1024 - 2 ^ 971)

/-- The finite elements of an array, as rationals (`x[np.isfinite(x)]`). -/
def finiteRats (x : List FVal) : List ℚ :=
  x.filterMap (fun v => match v with
    | .finite q => some q
    | .negZero => some (0 : ℚ)
    | _ => none)

/-- Mean over the finite elements,
`np.mean(x, where=np.isfinite(x))`: NaN when no element qualifies (0/0). -/
def finiteMeanF (x : List FVal) : FVal :=
  let qs := finiteRats x
  if qs.length = 0 then .nan 0
  else .finite (qs.foldl (· + ·) 0 / (qs.length : ℚ))

/-- Mean over the non-NaN elements, `np.nanmean(x)`: sums in IEEE extended
arithmetic (so `inf + -inf` is NaN and a single-signed infinite sum stays
infinite), NaN when every element is NaN or the array is empty. -/
def nanMeanF (x : List FVal) : FVal :=
  let ys := x.filter (fun v => !isNaNv v)
  if ys.length = 0 then .nan 0
  else
    match ys.foldl (fun acc v => eadd acc (toEVal v)) (.val 0) with
    | .nanE => .nan 0
    | .pinfE => .posInf
    | .ninfE => .negInf
    | .val s => .finite (s / (ys.length : ℚ))

/-- Minimum over the non-NaN elements with initial `+inf`,
`np.nanmin(x, initial=np.inf)`. -/
def nanMinF (x : List FVal) : FVal :=
  (x.filter (fun v => !isNaNv v)).foldl fmin .posInf

/-- Maximum over the non-NaN elements with initial `-inf`,
`np.nanmax(x, initial=-np.inf)`. -/
def nanMaxF (x : List FVal) : FVal :=
  (x.filter (fun v => !isNaNv v)).foldl fmax .negInf

/-- `Replacement.compute` for a floating-point (`float64`) array: each
statistic kind as the corresponding numpy reduction with its `initial`
fallback, means cast back to the element type (the identity for `float64` in
this idealized model). -/
def computeF (r : Replacement) (x : List FVal) : FVal :=
  match r with
  | .finite_min => .finite ((finiteRats x).foldl min f64max)
  | .finite_mean => finiteMeanF x
  | .finite_max => .finite ((finiteRats x).foldl max f64min)
  | .nan_min => nanMinF x
  | .nan_mean => nanMeanF x
  | .nan_max => nanMaxF x

/-- `np.iinfo(np.int64).max`. -/
def i64max : Int := 2 ^ 63 - 1

/-- `np.iinfo(np.int64).min`. -/
def i64min : Int := -(2 ^ 63)

/-- Truncation toward zero of a rational to an integer, the behaviour of
`astype` from a floating value to an integer type. -/
def truncQ (q : ℚ) : Int := Int.tdiv q.num (q.den : Int)

/-- Mean of an integer array cast back to the integer element type. For an
empty array the floating mean is NaN and `astype` to an integer type is
implementation-defined (NaN has no integer representation), modelled as
`none`. -/
def intMean (x : List Int) : Option Int :=
  if x.length = 0 then none
  else some (truncQ (((x.foldl (· + ·) 0 : Int) : ℚ) / (x.length : ℚ)))

/-- `Replacement.compute` for an integer (`int64`) array: every element is
finite and non-NaN, so the min/max kinds reduce with the type's bounds as
`initial`, and both mean kinds are the integer-cast mean. -/
def computeI (r : Replacement) (x : List Int) : Option Int :=
  match r with
  | .finite_min => some (x.foldl min i64max)
  | .finite_mean => intMean x
  | .finite_max => some (x.foldl max i64min)
  | .nan_min => some (x.foldl min i64max)
  | .nan_mean => intMean x
  | .nan_max => some (x.foldl max i64min)

/-- A normalized replacement spec, the value type of
`ReplaceFilterCodec._replacements : dict[int | float, int | float | Replacement]`:
either a literal scalar or a `Replacement` enumeration member. No textual
statistic name can occur here. -/
inductive RSpec where
  | lit (v : FVal)
  | stat (r : Replacement)
deriving DecidableEq, Repr

/-- A declarative replacement spec as accepted by `ReplaceFilterCodec.__init__`:
a literal scalar, a `Replacement` member, or a textual statistic name. -/
inductive DeclSpec where
  | num (v : FVal)
  | stat (r : Replacement)
  | name (s : String)
deriving DecidableEq, Repr

/-- The normalized replacement configuration: an ordered mapping (insertion
order of the Python dict) from match-key to normalized spec. -/
abbrev Config := List (FVal × RSpec)

/-- `Replacement[s]`: lookup of an enumeration member by its member name;
`none` models the `KeyError` raised for an unrecognized name. -/
def replacementOfName (s : String) : Option Replacement :=
  if s = "finite_min" then some .finite_min
  else if s = "finite_mean" then some .finite_mean
  else if s = "finite_max" then some .finite_max
  else if s = "nan_min" then some .nan_min
  else if s = "nan_mean" then some .nan_mean
  else if s = "nan_max" then some .nan_max
  else none

/-- The member name of a `Replacement` member. -/
def memberName : Replacement → String
  | .finite_min => "finite_min"
  | .finite_mean => "finite_mean"
  | .finite_max => "finite_max"
  | .nan_min => "nan_min"
  | .nan_mean => "nan_mean"
  | .nan_max => "nan_max"

/-- Python `str(v)` for a member `v` of the plain `Enum` class `Replacement`:
the class name, a dot, and the member name. -/
def replacementStr (r : Replacement) : String :=
  "Replacement." ++ memberName r

/-- Normalization of one declarative spec,
`Replacement[v] if isinstance(v, str) else v`: a literal or enumeration member
passes through, a textual name is looked up (`none` on `KeyError`). -/
def normSpec : DeclSpec → Option RSpec
  | .num v => some (.lit v)
  | .stat r => some (.stat r)
  | .name s => (replacementOfName s).map .stat

/-- `ReplaceFilterCodec.__init__`: normalizes the declarative mapping entry by
entry, preserving key order; the first unrecognized textual name aborts
construction (`KeyError`), modelled as `none`. -/
def mkReplacements : List (FVal × DeclSpec) → Option Config
  | [] => some []
  | p :: d =>
    match normSpec p.2 with
    | none => none
    | some r =>
      match mkReplacements d with
      | none => none
      | some cfg => some ((p.1, r) :: cfg)

/-- Export of one normalized spec by `get_config`,
`str(v) if isinstance(v, Replacement) else v`. -/
def exportSpec : RSpec → DeclSpec
  | .lit v => .num v
  | .stat r => .name (replacementStr r)

/-- The declarative configuration blob exchanged with the codec registry:
the codec identifier plus the declarative replacements mapping. -/
structure CodecConfig where
  id : String
  replacements : List (FVal × DeclSpec)
deriving DecidableEq, Repr

/-- `ReplaceFilterCodec.get_config`. -/
def getConfig (c : Config) : CodecConfig :=
  ⟨"replace.filter", c.map (fun p => (p.1, exportSpec p.2))⟩

/-- `numcodecs.registry.get_codec` applied to a configuration blob: dispatches
on the codec identifier and reconstructs through `__init__`. -/
def getCodec (cc : CodecConfig) : Option Config :=
  if cc.id = "replace.filter" then mkReplacements cc.replacements else none

/-- Resolution of one spec against an array,
`v.compute(a) if isinstance(v, Replacement) else v`. -/
def resolveSpec (s : RSpec) (a : List FVal) : FVal :=
  match s with
  | .lit v => v
  | .stat r => computeF r a

/-- The first phase of `encode`: the dict comprehension resolving every
statistic-valued spec against the array `a`, before any rule is applied. -/
def resolvedRules (c : Config) (a : List FVal) : List (FVal × FVal) :=
  c.map (fun p => (p.1, resolveSpec p.2 a))

/-- One masked assignment of the `encode` loop: for a non-NaN match-key
`a[a == k] = v` (ordinary numeric equality; an `int` key is never NaN, so the
`isinstance(k, int) or not np.isnan(k)` guard is exactly `¬ isNaNv k`), for a
NaN match-key `a[np.isnan(a)] = v` (value-class selection). -/
def applyRule (k v : FVal) (w : List FVal) : List FVal :=
  if isNaNv k = false then w.map (fun x => if numEq x k then v else x)
  else w.map (fun x => if isNaNv x then v else x)

/-- The second phase of `encode`: the `for k, v in replacements.items()` loop,
applying each resolved rule in order to the working copy. -/
def applyResolved (rs : List (FVal × FVal)) (a : List FVal) : List FVal :=
  rs.foldl (fun w p => applyRule p.1 p.2 w) a

/-- `ReplaceFilterCodec.encode` on the working copy's values: resolve all
statistics against the (copy of the) input array, then apply the rules
sequentially. -/
def encode (c : Config) (a : List FVal) : List FVal :=
  applyResolved (resolvedRules c a) a

/-- `ReplaceFilterCodec.decode`: `numcodecs.compat.ndarray_copy(buf, out)`, a
pure copy of the encoded buffer (into `out` when supplied); the returned
contents are those of `buf`, bit for bit. -/
def decode (buf : List FVal) (_out : Option (List FVal)) : List FVal := buf

/-- A fixed-shape array: its shape and its flattened element data. The element
type (dtype) is fixed at the type level (`FVal`, the `float64` model). -/
structure NDArray where
  shape : List ℕ
  data : List FVal

/-- `encode` on a shaped array: every step (`np.copy`, the masked assignments)
is elementwise and shape-preserving. -/
def encodeND (c : Config) (a : NDArray) : NDArray :=
  ⟨a.shape, encode c a.data⟩

/-- Store-passing model of one `encode` call: the store is the list of live
array buffers, the caller's input lives at address `i`. The call reads the
input, allocates a fresh working copy at a fresh address (`np.copy`), resolves
all statistics from that copy, and performs every masked write at the fresh
address. Returns the address of the result and the final store. -/
def encodeProg (c : Config) (i : ℕ) (s : List (List FVal)) : ℕ × List (List FVal) :=
  let j := s.length
  let s1 := s ++ [s.getD i []]
  let rs := resolvedRules c (s1.getD j [])
  (j, rs.foldl (fun t p => t.set j (applyRule p.1 p.2 (t.getD j []))) s1)

/-- The array `[+inf, -inf, NaN, -NaN, 0.0, -0.0]` of the spec's non-finite
rule example; the two NaN elements carry distinct bit patterns. -/
def exampleArr : List FVal :=
  [.posInf, .negInf, .nan 1, .nan 2, .finite 0, .negZero]

/-- The rules `{+inf: finite_max, -inf: finite_min, NaN: nan_mean}` of the
spec's non-finite rule example; the NaN match-key's bit pattern differs from
both NaN elements of `exampleArr`. -/
def exampleCfg : Config :=
  [(.posInf, .stat .finite_max), (.negInf, .stat .finite_min),
   (.nan 0, .stat .nan_mean)]

/-! Helper lemmas shared by several claims. -/

theorem applyRule_length (k v : FVal) (w : List FVal) :
    (applyRule k v w).length = w.length := by
  unfold applyRule
  split <;> simp

theorem applyResolved_cons (p : FVal × FVal) (rs : List (FVal × FVal))
    (a : List FVal) :
    applyResolved (p :: rs) a = applyResolved rs (applyRule p.1 p.2 a) := rfl

theorem applyResolved_length (rs : List (FVal × FVal)) (a : List FVal) :
    (applyResolved rs a).length = a.length := by
  induction rs generalizing a with
  | nil => rfl
  | cons p rs ih => rw [applyResolved_cons, ih, applyRule_length]

/-- C4: replacement rules are applied sequentially in the configuration's
iteration order, each later rule operating on the working copy as already
modified by earlier rules: the rules `[(24 → 42), (42 → 0)]` applied to `[24]`
yield `[0]`, the reversed order yields `[42]`, and in general encoding under a
concatenated configuration first applies the earlier rules and then the later
ones on the partially rewritten copy (with all statistics still resolved
against the original array). -/
theorem encode_order_sensitivity :
    encode [(.finite 24, .lit (.finite 42)), (.finite 42, .lit (.finite 0))]
        [.finite 24] = [.finite 0] ∧
    encode [(.finite 42, .lit (.finite 0)), (.finite 24, .lit (.finite 42))]
        [.finite 24] = [.finite 42] ∧
    ∀ (a : List FVal) (c₁ c₂ : Config),
      encode (c₁ ++ c₂) a = applyResolved (resolvedRules c₂ a) (encode c₁ a) := by
  refine ⟨by decide, by decide, ?_⟩
  intro a c₁ c₂
  unfold encode resolvedRules applyResolved
  rw [List.map_append, List.foldl_append]

/-- C5 counterexample: for an empty integer-typed array the two mean
statistics do not resolve to NaN. The computed floating mean of an empty
array is NaN, but `astype` into an integer element type has no NaN to produce
— the cast is implementation-defined (modelled as `none`), so no Statistic
Kind of an integer array ever "resolves to NaN" as the claim states. -/
theorem int_empty_mean_fallback_not_nan :
    computeI .finite_mean ([] : List Int) = none ∧
    computeI .nan_mean ([] : List Int) = none := ⟨rfl, rfl⟩

/-- C5 (amended): for an empty array every Statistic Kind hits its fallback:
`finite_min` resolves to the element type's largest representable finite value
and `finite_max` to its smallest, for both the floating and the integer model;
`nan_min` resolves to `+inf` for floating types and `info.max` for integer
types, `nan_max` to `-inf` for floating types and `info.min` for integer
types; `finite_mean` and `nan_mean` resolve to NaN for floating types, while
for integer types the NaN fallback's cast into the integer element type is
implementation-defined (`none`). -/
theorem empty_array_fallbacks :
    computeF .finite_min [] = .finite f64max ∧
    computeF .finite_max [] = .finite f64min ∧
    isNaNv (computeF .finite_mean []) = true ∧
    isNaNv (computeF .nan_mean []) = true ∧
    computeF .nan_min [] = .posInf ∧
    computeF .nan_max [] = .negInf ∧
    computeI .finite_min [] = some i64max ∧
    computeI .finite_max [] = some i64min ∧
    computeI .nan_min [] = some i64max ∧
    computeI .nan_max [] = some i64min ∧
    computeI .finite_mean [] = none ∧
    computeI .nan_mean [] = none :=
  ⟨rfl, rfl, rfl, rfl, rfl, rfl, rfl, rfl, rfl, rfl, rfl, rfl⟩

/-- C6: encoding preserves the array's shape and element count; the element
type (dtype) is preserved at the type level, since `encode` maps lists of
`FVal` elements to lists of `FVal` elements. -/
theorem encode_preserves_shape (c : Config) (a : NDArray) :
    (encodeND c a).shape = a.shape ∧
    (encodeND c a).data.length = a.data.length :=
  ⟨rfl, applyResolved_length _ _⟩

/-- C2: encode resolves every Statistic-Kind-valued spec by invoking
`Replacement.compute` on the original, pre-replacement array: the resolved
pair for a statistic rule of the configuration is exactly
`(match-key, computeF kind a)` for the input array `a`; the resolved values
are independent of rule processing order (reordering the configuration merely
reorders the same resolved pairs); and the whole rule-application phase of
encode runs on this fully pre-resolved list. -/
theorem encode_resolves_stats_on_original (c cp : Config) (a : List FVal)
    (k : FVal) (r : Replacement) (hmem : (k, RSpec.stat r) ∈ c) :
    (k, computeF r a) ∈ resolvedRules c a ∧
    (c.Perm cp → (resolvedRules c a).Perm (resolvedRules cp a)) ∧
    encode c a = applyResolved (resolvedRules c a) a :=
  ⟨List.mem_map.mpr ⟨(k, RSpec.stat r), hmem, rfl⟩, fun hp => hp.map _, rfl⟩

theorem encode_resolves_stats_on_original_witness :
    (FVal.finite 0, computeF .nan_mean [FVal.finite 2]) ∈
      resolvedRules [(FVal.finite 0, RSpec.stat .nan_mean)] [FVal.finite 2] :=
  (encode_resolves_stats_on_original
    [(FVal.finite 0, RSpec.stat .nan_mean)]
    [(FVal.finite 0, RSpec.stat .nan_mean)]
    [FVal.finite 2] (FVal.finite 0) .nan_mean (by decide)).1

/-- C3: a rule with a NaN-valued match-key overwrites every working-copy
element that is NaN by value class, irrespective of its bit pattern, while a
rule with a non-NaN match-key overwrites exactly the elements equal to the key
under ordinary numeric equality; and on the spec's example
`[+inf, -inf, NaN, -NaN, 0.0, -0.0]` with rules
`{+inf: finite_max, -inf: finite_min, NaN: nan_mean}`, the `+inf` element
becomes `finite_max(a)`, the `-inf` element becomes `finite_min(a)`, and both
NaN-valued elements (of distinct bit patterns) become `nan_mean(a)`. -/
theorem nan_class_rule_matching (k v : FVal) (w : List FVal) (i : ℕ)
    (x : FVal) (hx : w[i]? = some x) :
    (isNaNv k = true →
      (applyRule k v w)[i]? = some (if isNaNv x then v else x)) ∧
    (isNaNv k = false →
      (applyRule k v w)[i]? = some (if numEq x k then v else x)) ∧
    encode exampleCfg exampleArr =
      [computeF .finite_max exampleArr, computeF .finite_min exampleArr,
       computeF .nan_mean exampleArr, computeF .nan_mean exampleArr,
       .finite 0, .negZero] := by
  have hmax : computeF .finite_max exampleArr = .finite 0 := by
    show FVal.finite (List.foldl max f64min (finiteRats exampleArr)) = _
    rw [show finiteRats exampleArr = [0, 0] from rfl]
    show FVal.finite (max (max f64min 0) 0) = _
    rw [max_eq_right (by norm_num [f64min] : f64min ≤ (0 : ℚ)), max_self]
  have hmin : computeF .finite_min exampleArr = .finite 0 := by
    show FVal.finite (List.foldl min f64max (finiteRats exampleArr)) = _
    rw [show finiteRats exampleArr = [0, 0] from rfl]
    show FVal.finite (min (min f64max 0) 0) = _
    rw [min_eq_right (by norm_num [f64max] : (0 : ℚ) ≤ f64max), min_self]
  have hmean : computeF .nan_mean exampleArr = .nan 0 := rfl
  refine ⟨?_, ?_, ?_⟩
  · intro hk
    simp [applyRule, hk, List.getElem?_map, hx]
  · intro hk
    simp [applyRule, hk, List.getElem?_map, hx]
  · have hrules : resolvedRules exampleCfg exampleArr =
        [(.posInf, .finite 0), (.negInf, .finite 0), (.nan 0, .nan 0)] := by
      show [(FVal.posInf, computeF .finite_max exampleArr),
            (FVal.negInf, computeF .finite_min exampleArr),
            (FVal.nan 0, computeF .nan_mean exampleArr)] = _
      rw [hmax, hmin, hmean]
    show applyResolved (resolvedRules exampleCfg exampleArr) exampleArr = _
    rw [hrules, hmax, hmin, hmean]
    decide

theorem nan_class_rule_matching_witness :
    (applyRule (FVal.nan 5) (FVal.finite 1) [FVal.nan 7])[0]? =
      some (if isNaNv (FVal.nan 7) then FVal.finite 1 else FVal.nan 7) :=
  (nan_class_rule_matching (FVal.nan 5) (FVal.finite 1) [FVal.nan 7] 0
    (FVal.nan 7) rfl).1 rfl

/-- NaN compares unequal to every value under IEEE numeric equality. -/
theorem numEq_nan_left (x k : FVal) (hx : isNaNv x = true) :
    numEq x k = false := by
  cases x with
  | finite q => simp [isNaNv] at hx
  | negZero => simp [isNaNv] at hx
  | posInf => simp [isNaNv] at hx
  | negInf => simp [isNaNv] at hx
  | nan b => cases k <;> rfl

/-- A masked assignment whose match-key is not NaN leaves every NaN-valued
element of the working copy in place. -/
theorem applyRule_keeps_nan (k v : FVal) (w : List FVal) (i : ℕ) (x : FVal)
    (hk : isNaNv k = false) (hx : w[i]? = some x) (hnan : isNaNv x = true) :
    (applyRule k v w)[i]? = some x := by
  simp [applyRule, hk, List.getElem?_map, hx, numEq_nan_left x k hnan]

/-- Sequential rule application with NaN-free match-keys leaves every
NaN-valued element in place. -/
theorem applyResolved_keeps_nan (rs : List (FVal × FVal)) (w : List FVal)
    (i : ℕ) (x : FVal) (hks : ∀ p ∈ rs, isNaNv p.1 = false)
    (hx : w[i]? = some x) (hnan : isNaNv x = true) :
    (applyResolved rs w)[i]? = some x := by
  induction rs generalizing w with
  | nil => exact hx
  | cons p rs ih =>
    rw [applyResolved_cons]
    exact ih (applyRule p.1 p.2 w)
      (fun q hq => hks q (List.mem_cons_of_mem p hq))
      (applyRule_keeps_nan p.1 p.2 w i x (hks p (List.mem_cons_self p rs))
        hx hnan)

/-- C10: a rule whose match-key is not NaN never modifies a NaN-valued element
of the working copy (NaN compares unequal to every match-key under numeric
equality), and consequently under a configuration with no NaN match-key every
NaN element of the input survives an entire encode call unchanged — NaN
elements can only be rewritten by a NaN-keyed rule. -/
theorem non_nan_rules_never_touch_nans :
    (∀ (k v : FVal) (w : List FVal) (i : ℕ) (x : FVal),
      isNaNv k = false → w[i]? = some x → isNaNv x = true →
      (applyRule k v w)[i]? = some x) ∧
    (∀ (c : Config) (a : List FVal) (i : ℕ) (x : FVal),
      (∀ p ∈ c, isNaNv p.1 = false) → a[i]? = some x → isNaNv x = true →
      (encode c a)[i]? = some x) := by
  refine ⟨fun k v w i x hk hx hn => applyRule_keeps_nan k v w i x hk hx hn, ?_⟩
  intro c a i x hks hx hn
  refine applyResolved_keeps_nan (resolvedRules c a) a i x ?_ hx hn
  intro p hp
  have hp' : p ∈ c.map (fun q => (q.1, resolveSpec q.2 a)) := hp
  rcases List.mem_map.mp hp' with ⟨q, hq, rfl⟩
  exact hks q hq

theorem non_nan_rules_never_touch_nans_witness :
    (encode [(FVal.finite 1, RSpec.lit (FVal.finite 2))] [FVal.nan 3])[0]? =
      some (FVal.nan 3) :=
  non_nan_rules_never_touch_nans.2
    [(FVal.finite 1, RSpec.lit (FVal.finite 2))] [FVal.nan 3] 0 (FVal.nan 3)
    (by decide) rfl rfl

/-- The store-writing loop of `encodeProg` never changes any address other
than the working copy's. -/
theorem storeFold_frame (rs : List (FVal × FVal)) (t : List (List FVal))
    (j i : ℕ) (h : i ≠ j) :
    (rs.foldl (fun t p => t.set j (applyRule p.1 p.2 (t.getD j []))) t)[i]? =
      t[i]? := by
  induction rs generalizing t with
  | nil => rfl
  | cons p rs ih =>
    rw [List.foldl_cons, ih (t.set j (applyRule p.1 p.2 (t.getD j [])))]
    exact List.getElem?_set_ne (Ne.symm h)

/-- The store-writing loop of `encodeProg` leaves at the working copy's
address exactly the sequential application of the resolved rules. -/
theorem storeFold_at (rs : List (FVal × FVal)) (t : List (List FVal))
    (j : ℕ) (hj : j < t.length) :
    (rs.foldl (fun t p => t.set j (applyRule p.1 p.2 (t.getD j []))) t).getD
        j [] = applyResolved rs (t.getD j []) := by
  induction rs generalizing t with
  | nil => rfl
  | cons p rs ih =>
    rw [List.foldl_cons, applyResolved_cons]
    have hl : j < (t.set j (applyRule p.1 p.2 (t.getD j []))).length := by
      simpa using hj
    rw [ih _ hl]
    congr 1
    simp [List.getD_eq_getElem?_getD, List.getElem?_set_self hj]

/-- C8: encode never mutates the caller's input array: in the store-passing
model of one encode call, the buffer at the caller's address is bit-identical
before and after the call — every write lands on the freshly allocated working
copy, which afterwards holds exactly `encode` of the input values. -/
theorem encode_never_mutates_input (c : Config) (i : ℕ)
    (s : List (List FVal)) (h : i < s.length) :
    (encodeProg c i s).2[i]? = s[i]? ∧
    (encodeProg c i s).2.getD (encodeProg c i s).1 [] =
      encode c (s.getD i []) := by
  have hgetj : (s ++ [s.getD i []]).getD s.length [] = s.getD i [] := by
    simp [List.getD_eq_getElem?_getD]
  constructor
  · show ((resolvedRules c ((s ++ [s.getD i []]).getD s.length [])).foldl
        (fun t p => t.set s.length (applyRule p.1 p.2 (t.getD s.length [])))
        (s ++ [s.getD i []]))[i]? = s[i]?
    rw [storeFold_frame _ _ _ _ (Nat.ne_of_lt h)]
    exact List.getElem?_append_left h
  · show ((resolvedRules c ((s ++ [s.getD i []]).getD s.length [])).foldl
        (fun t p => t.set s.length (applyRule p.1 p.2 (t.getD s.length [])))
        (s ++ [s.getD i []])).getD s.length [] = _
    rw [storeFold_at _ _ _ (by simp : s.length < (s ++ [s.getD i []]).length),
      hgetj]
    rfl

theorem encode_never_mutates_input_witness :
    (encodeProg [(FVal.finite 1, RSpec.lit (FVal.finite 2))] 0
        [[FVal.finite 1]]).2[0]? = [[FVal.finite 1]][0]? :=
  (encode_never_mutates_input [(FVal.finite 1, RSpec.lit (FVal.finite 2))] 0
    [[FVal.finite 1]] (by decide)).1

/-- Normalization of a declarative spec fails exactly on an unrecognized
textual statistic name. -/
theorem normSpec_eq_none_iff (v : DeclSpec) :
    normSpec v = none ↔ ∃ s, v = .name s ∧ replacementOfName s = none := by
  cases v with
  | num x => simp [normSpec]
  | stat r => simp [normSpec]
  | name s =>
    constructor
    · intro h
      refine ⟨s, rfl, ?_⟩
      cases hr : replacementOfName s with
      | none => rfl
      | some r => rw [normSpec, hr] at h; exact absurd h (by simp)
    · rintro ⟨t, ht, hn⟩
      cases ht
      simp [normSpec, hn]

/-- C9: an unrecognized textual Statistic Kind name fails at
configuration-construction time — construction returns an error exactly when
some entry carries an unrecognized name; when construction succeeds, every
recognized textual name has been normalized into the enumeration (and the
resulting configuration, the only form `encode` accepts, has no textual entry
left, so validation is never deferred to encode time). -/
theorem construction_validates_names (d : List (FVal × DeclSpec)) :
    (mkReplacements d = none ↔
      ∃ k s, (k, DeclSpec.name s) ∈ d ∧ replacementOfName s = none) ∧
    (∀ cfg, mkReplacements d = some cfg →
      cfg.length = d.length ∧
      ∀ k s, (k, DeclSpec.name s) ∈ d →
        ∃ r, replacementOfName s = some r ∧ (k, RSpec.stat r) ∈ cfg) := by
  induction d with
  | nil =>
    constructor
    · simp [mkReplacements]
    · intro cfg hcfg
      rw [mkReplacements] at hcfg
      cases hcfg
      simp
  | cons p d ih =>
    cases hv : normSpec p.2 with
    | none =>
      have hnone : mkReplacements (p :: d) = none := by
        rw [mkReplacements, hv]
      rcases (normSpec_eq_none_iff p.2).mp hv with ⟨s, hs, hlook⟩
      constructor
      · refine ⟨fun _ => ⟨p.1, s, ?_, hlook⟩, fun _ => hnone⟩
        have : p = (p.1, DeclSpec.name s) := by
          rw [← hs]
        rw [← this]
        exact List.mem_cons_self p d
      · intro cfg hcfg
        rw [hnone] at hcfg
        exact absurd hcfg (by simp)
    | some r =>
      cases hd : mkReplacements d with
      | none =>
        have hnone : mkReplacements (p :: d) = none := by
          rw [mkReplacements, hv, hd]
        rcases (ih.1).mp hd with ⟨k, s, hmem, hlook⟩
        constructor
        · exact ⟨fun _ => ⟨k, s, List.mem_cons_of_mem p hmem, hlook⟩,
            fun _ => hnone⟩
        · intro cfg hcfg
          rw [hnone] at hcfg
          exact absurd hcfg (by simp)
      | some cfg₀ =>
        have hsome : mkReplacements (p :: d) = some ((p.1, r) :: cfg₀) := by
          rw [mkReplacements, hv, hd]
        constructor
        · constructor
          · intro hcon
            rw [hsome] at hcon
            exact absurd hcon (by simp)
          · rintro ⟨k, s, hmem, hlook⟩
            rcases List.mem_cons.mp hmem with hhead | htail
            · have hp2 : p.2 = DeclSpec.name s := by rw [← hhead]
              rw [hp2, normSpec, hlook] at hv
              exact absurd hv (by simp)
            · have hdn : mkReplacements d = none :=
                (ih.1).mpr ⟨k, s, htail, hlook⟩
              exact absurd (hd.symm.trans hdn) (by simp)
        · intro cfg hcfg
          rw [hsome] at hcfg
          cases hcfg
          constructor
          · simp [(ih.2 cfg₀ hd).1]
          · intro k s hmem
            rcases List.mem_cons.mp hmem with hhead | htail
            · have hp2 : p.2 = DeclSpec.name s := by rw [← hhead]
              have hp1 : p.1 = k := by rw [← hhead]
              rw [hp2, normSpec] at hv
              rcases Option.map_eq_some'.mp hv with ⟨r₀, hr₀, hr⟩
              refine ⟨r₀, hr₀, ?_⟩
              rw [← hr, ← hp1]
              exact List.mem_cons_self _ _
            · rcases (ih.2 cfg₀ hd).2 k s htail with ⟨r₀, h1, h2⟩
              exact ⟨r₀, h1, List.mem_cons_of_mem _ h2⟩

theorem construction_validates_names_witness :
    mkReplacements [(FVal.finite 0, DeclSpec.name "bogus")] = none :=
  (construction_validates_names [(FVal.finite 0, DeclSpec.name "bogus")]).1.mpr
    ⟨FVal.finite 0, "bogus", by decide, by decide⟩

/-- C1 (code bug): the configuration round-trip fails. Constructing a codec
from the declarative mapping `{0.0: "finite_min"}` succeeds and normalizes the
name into the enumeration, but `get_config` exports the entry via Python
`str(Replacement.finite_min)`, which for a plain `Enum` is
`"Replacement.finite_min"` — not the member name — so reconstructing from the
exported configuration fails (`Replacement["Replacement.finite_min"]` is a
`KeyError`) instead of re-normalizing the Statistic Kind entry. -/
theorem config_roundtrip_failure :
    mkReplacements [(FVal.finite 0, DeclSpec.name "finite_min")] =
      some [(FVal.finite 0, RSpec.stat .finite_min)] ∧
    getConfig [(FVal.finite 0, RSpec.stat .finite_min)] =
      ⟨"replace.filter",
       [(FVal.finite 0, DeclSpec.name "Replacement.finite_min")]⟩ ∧
    getCodec ⟨"replace.filter",
       [(FVal.finite 0, DeclSpec.name "Replacement.finite_min")]⟩ = none :=
  ⟨by decide, by decide, by decide⟩

/-- C7: decode is a pure copy/passthrough: decoding an encoded array returns
it bit-identically (NaN payloads and zero signs included, since `decode` is
the identity on the bit-faithful value representation), and decode performs no
inverse substitution on any buffer. -/
theorem decode_is_passthrough (c : Config) (a buf : List FVal)
    (out : Option (List FVal)) :
    decode (encode c a) out = encode c a ∧ decode buf out = buf :=
  ⟨rfl, rfl⟩

end NumcodecsReplace
